import Mathlib

/-!
Verification of the galleon columnar compute kernel against its
specification.  The repository ships only the C header
(src/core/include/galleon.h); every kernel body is absent, so each
definition below is a shallow embedding modelled from the prose of the
specification (spec.md), as noted in its doc comment.  Conventions:

* f64 values are modelled as rationals: IEEE comparison and arithmetic on
  non-NaN doubles form a linear order / exact field here; NaN results are
  modelled by `Option` with `none` standing for NaN.
* i64 keys and values are modelled as integers; u64 hashes as naturals
  reduced mod 2^64; u32 indices as naturals; the i32 join sentinel -1 as
  the integer -1.
* C arrays are Lean lists; out-parameter pairs (buffer, count) are pairs.
-/

namespace Galleon

/-! ## Boolean counting kernels -/

/-- Modelled from the spec: `galleon_count_true(data, len)` (header line 209);
the implementation is not under src, only its declaration.  Counts the true
elements of a bool column. -/
def galleon_count_true (data : List Bool) : ℕ :=
  data.countP (fun b => b)

/-- Modelled from the spec: `galleon_count_false(data, len)` (header line 210);
counts the false elements of a bool column. -/
def galleon_count_false (data : List Bool) : ℕ :=
  data.countP (fun b => !b)

/-! ## Float aggregations (exact-arithmetic model) -/

/-- Modelled from the spec: `galleon_sum_f64` — sequential accumulation of the
elements, empty sum 0.0 (spec section 7, "Empty input ... sum = 0 (or 0.0)"). -/
def galleon_sum_f64 (data : List ℚ) : ℚ :=
  data.foldl (fun acc x => acc + x) 0

/-- Modelled from the spec: `galleon_sum_i64`; integer sums wrap as 64-bit
twos-complement (spec section 5, "integer sums wrap identically").
`i64wrap` reduces into [-2^63, 2^63). -/
def i64wrap (z : ℤ) : ℤ :=
  (z + 2 ^ 63) % 2 ^ 64 - 2 ^ 63

/-- Modelled from the spec: `galleon_sum_i64` — wrapping accumulation,
empty sum 0. -/
def galleon_sum_i64 (data : List ℤ) : ℤ :=
  data.foldl (fun acc x => i64wrap (acc + x)) 0

/-- Left fold of a binary reduction over a possibly empty column; `none`
models the NaN result on empty input. -/
def foldOpt (f : ℚ → ℚ → ℚ) (data : List ℚ) : Option ℚ :=
  match data with
  | [] => none
  | x :: xs => some (xs.foldl f x)

/-- Modelled from the spec: `galleon_min_f64`; min over the elements, `none`
models the NaN returned on empty input (spec section 7). -/
def galleon_min_f64 (data : List ℚ) : Option ℚ :=
  foldOpt min data

/-- Modelled from the spec: `galleon_max_f64`; max over the elements, `none`
models the NaN returned on empty input. -/
def galleon_max_f64 (data : List ℚ) : Option ℚ :=
  foldOpt max data

/-- Modelled from the spec: `galleon_mean_f64` — sum divided by count, `none`
(NaN) on empty input. -/
def galleon_mean_f64 (data : List ℚ) : Option ℚ :=
  match data with
  | [] => none
  | _ :: _ => some (galleon_sum_f64 data / data.length)

/-! ## Statistics operations with a validity out-parameter -/

/-- Modelled from the spec: `galleon_median_f64(data, len, out_valid)`
(header line 395).  Sorts the data and takes the middle element (average of
the two middle elements for even length); `out_valid` is false on empty
input and the returned value is then unspecified (modelled as 0). -/
def galleon_median_f64 (data : List ℚ) : ℚ × Bool :=
  match data with
  | [] => (0, false)
  | _ :: _ =>
    let s := data.insertionSort (· ≤ ·)
    if data.length % 2 = 1 then
      (s.getD (data.length / 2) 0, true)
    else
      ((s.getD (data.length / 2 - 1) 0 + s.getD (data.length / 2) 0) / 2, true)

/-- Modelled from the spec: `galleon_variance_f64(data, len, out_valid)`
(header line 410), sample variance with n-1 denominator; `out_valid` is
false when fewer than two elements are present (the n-1 denominator needs
n at least 2; in particular false on empty input). -/
def galleon_variance_f64 (data : List ℚ) : ℚ × Bool :=
  if data.length < 2 then (0, false)
  else
    let m : ℚ := galleon_sum_f64 data / data.length
    (galleon_sum_f64 (data.map (fun x => (x - m) * (x - m))) / (data.length - 1), true)

/-- Modelled from the spec: `galleon_quantile_f64(data, len, q, out_valid)`
(header line 398).  Sorts the data and linearly interpolates at rank
q * (len - 1); `out_valid` is false on empty input, and the returned
value is then unspecified (modelled as 0). -/
def galleon_quantile_f64 (data : List ℚ) (q : ℚ) : ℚ × Bool :=
  match data with
  | [] => (0, false)
  | _ :: _ =>
    let s := data.insertionSort (· ≤ ·)
    let pos := q * ((data.length : ℚ) - 1)
    let i := (⌊pos⌋).toNat
    let lo := s.getD i 0
    (lo + (s.getD (i + 1) lo - lo) * (pos - (⌊pos⌋ : ℚ)), true)

/-- Population central moment of order k: the mean of (x - mean)^k. -/
def centralMoment (data : List ℚ) (k : ℕ) : ℚ :=
  let n : ℚ := data.length
  let m := galleon_sum_f64 data / n
  galleon_sum_f64 (data.map (fun x => (x - m) ^ k)) / n

/-- Modelled from the spec: `galleon_skewness_f64(data, len, out_valid)`
(header line 401), the third standardized moment m3 / m2^(3/2); the IEEE
square root is modelled by the rational square root Rat.sqrt.
`out_valid` is false when the formula is undefined: on empty input (the
claim under verification) or zero variance. -/
def galleon_skewness_f64 (data : List ℚ) : ℚ × Bool :=
  match data with
  | [] => (0, false)
  | _ :: _ =>
    let m2 := centralMoment data 2
    if m2 = 0 then (0, false)
    else (centralMoment data 3 / (m2 * Rat.sqrt m2), true)

/-- Modelled from the spec: `galleon_kurtosis_f64(data, len, out_valid)`
(header lines 403-404), excess kurtosis m4 / m2^2 - 3; `out_valid` is
false on empty input or zero variance. -/
def galleon_kurtosis_f64 (data : List ℚ) : ℚ × Bool :=
  match data with
  | [] => (0, false)
  | _ :: _ =>
    let m2 := centralMoment data 2
    if m2 = 0 then (0, false)
    else (centralMoment data 4 / (m2 * m2) - 3, true)

/-- Modelled from the spec: `galleon_correlation_f64(x, y, len, out_valid)`
(header line 407), the Pearson coefficient cov / sqrt(varx * vary) (the
IEEE square root modelled by Rat.sqrt); the two arrays share one length
by caller contract.  `out_valid` is false when len = 0 or either
variance is zero. -/
def galleon_correlation_f64 (x y : List ℚ) : ℚ × Bool :=
  match x with
  | [] => (0, false)
  | _ :: _ =>
    let n : ℚ := x.length
    let mx := galleon_sum_f64 x / n
    let my := galleon_sum_f64 y / n
    let cov := galleon_sum_f64 (List.zipWith (fun a b => (a - mx) * (b - my)) x y) / n
    let vx := centralMoment x 2
    let vy := centralMoment y 2
    if vx = 0 ∨ vy = 0 then (0, false)
    else (cov / Rat.sqrt (vx * vy), true)

/-- Modelled from the spec: `galleon_stddev_f64(data, len, out_valid)`
(header line 413): the square root of the sample variance (Rat.sqrt in
the rational model), honouring the variance out_valid — in particular
false on empty input. -/
def galleon_stddev_f64 (data : List ℚ) : ℚ × Bool :=
  (Rat.sqrt (galleon_variance_f64 data).1, (galleon_variance_f64 data).2)

/-! ## Filter kernels and mask operations -/

/-- Modelled from the spec: `galleon_filter_mask_u8_gt_f64(data, len, t,
out_mask)` (header lines 107-108): dense byte mask, nonzero = true, one byte
per element, mask bit i set exactly when `data[i] > t`. -/
def galleon_filter_mask_u8_gt_f64 (data : List ℚ) (threshold : ℚ) : List Bool :=
  data.map (fun x => decide (threshold < x))

/-- Modelled from the spec: `galleon_filter_gt_f64(data, len, t, out_indices,
out_count)` (header lines 103-104): packed ascending list of the indices i
with `data[i] > t`, together with its count. -/
def galleon_filter_gt_f64 (data : List ℚ) (threshold : ℚ) : List ℕ × ℕ :=
  let idxs := (List.range data.length).filter (fun i => decide (threshold < data.getD i 0))
  (idxs, idxs.length)

/-- Modelled from the spec: `galleon_indices_from_mask(mask, len, out_indices,
max_indices)` (header line 360): the indices of the true mask bytes in
ascending order, truncated to the capacity `maxIndices` of the output
buffer; returns the count written. -/
def galleon_indices_from_mask (mask : List Bool) (maxIndices : ℕ) : List ℕ × ℕ :=
  let idxs := ((List.range mask.length).filter (fun i => mask.getD i false)).take maxIndices
  (idxs, idxs.length)

/-! ## Gather kernels -/

/-- Modelled from the spec: the common gather shape (spec glossary,
"out[i] = src[indices[i]] with sentinel for out-of-range indices";
section 4.2 Gather).  Indices are i32, modelled as integers. -/
def galleon_gather {α : Type} (src : List α) (sentinel : α) (indices : List ℤ) : List α :=
  indices.map (fun ix =>
    if 0 ≤ ix ∧ ix.toNat < src.length then src.getD ix.toNat sentinel else sentinel)

/-- Modelled from the spec: `galleon_gather_f64` (header lines 244-245);
the out-of-range sentinel is NaN, modelled as `none`. -/
def galleon_gather_f64 (src : List ℚ) (indices : List ℤ) : List (Option ℚ) :=
  galleon_gather (src.map some) none indices

/-- Modelled from the spec: `galleon_gather_i64` (header lines 246-247);
the out-of-range sentinel is the integer 0 (spec section 4.2: "NaN for
floats, zero for integers"). -/
def galleon_gather_i64 (src : List ℤ) (indices : List ℤ) : List ℤ :=
  galleon_gather src 0 indices

/-! ## Argsort kernels -/

/-- Sort key of row i: the element at index i (indices handed to the sort are
always below the length, so the default is never read). -/
def keyAt {α : Type} [Inhabited α] (data : List α) (i : ℕ) : α :=
  data.getD i default

/-- Modelled from the spec: the comparison used by the argsort kernels
(section 4.2, "stable key sort ... ties broken by original index"): row i
precedes row j when its key is strictly smaller in the requested direction,
or the keys are equal and i comes first.  This is the lexicographic order on
(key, original index). -/
def argsortRel {α : Type} [LinearOrder α] [Inhabited α] (data : List α)
    (ascending : Bool) (i j : ℕ) : Prop :=
  (if ascending then keyAt data i < keyAt data j else keyAt data j < keyAt data i) ∨
    (keyAt data i = keyAt data j ∧ i ≤ j)

instance {α : Type} [LinearOrder α] [Inhabited α] (data : List α)
    (ascending : Bool) : DecidableRel (argsortRel data ascending) := fun i j => by
  unfold argsortRel
  infer_instance

/-- Modelled from the spec: `galleon_argsort_{f64,f32,i64,i32}` (header lines
111, 140, 168, 196), expressed once over the element type as the spec
directs (section 9): a stable sort of the index range [0, L) by key. -/
def galleon_argsort {α : Type} [LinearOrder α] [Inhabited α] (data : List α)
    (ascending : Bool) : List ℕ :=
  List.insertionSort (argsortRel data ascending) (List.range data.length)

/-! ## Chunked column (f64) -/

/-- Modelled from the spec: the build-time chunk capacity C (spec section 3,
"canonical choice 8,192 elements"). -/
def CHUNK_LEN : ℕ := 8192

/-- Modelled from the spec: split a dense buffer into chunks of capacity
CHUNK_LEN, all full except possibly the last (spec section 4.5, create). -/
def chunksOf : List ℚ → List (List ℚ)
  | [] => []
  | x :: xs => (x :: xs).take CHUNK_LEN :: chunksOf ((x :: xs).drop CHUNK_LEN)
  termination_by l => l.length
  decreasing_by
    simp only [List.length_drop, List.length_cons, CHUNK_LEN]
    omega

/-- Modelled from the spec: `galleon_chunked_f64_create(data, len)` (header
line 488) — copy the dense buffer into cache-sized chunks. -/
def galleon_chunked_f64_create (data : List ℚ) : List (List ℚ) :=
  chunksOf data

/-- Modelled from the spec: `galleon_chunked_f64_sum` (header line 498) —
one partial sum per chunk, reduced across chunks. -/
def galleon_chunked_f64_sum (col : List (List ℚ)) : ℚ :=
  (col.map galleon_sum_f64).foldl (fun acc x => acc + x) 0

/-- Combine two per-chunk reduction results, skipping absent (empty-chunk)
results; `none` models NaN / no data. -/
def optCombine (f : ℚ → ℚ → ℚ) : Option ℚ → Option ℚ → Option ℚ
  | none, b => b
  | some a, none => some a
  | some a, some b => some (f a b)

/-- Modelled from the spec: `galleon_chunked_f64_min` (header line 499) —
per-chunk min, reduced across chunks. -/
def galleon_chunked_f64_min (col : List (List ℚ)) : Option ℚ :=
  (col.map galleon_min_f64).foldl (optCombine min) none

/-- Modelled from the spec: `galleon_chunked_f64_max` (header line 500) —
per-chunk max, reduced across chunks. -/
def galleon_chunked_f64_max (col : List (List ℚ)) : Option ℚ :=
  (col.map galleon_max_f64).foldl (optCombine max) none

/-- Modelled from the spec: `galleon_chunked_f64_mean` (header line 501) —
accumulate (sum, count) per chunk (spec section 4.5), final division;
`none` models the NaN mean of an empty column. -/
def galleon_chunked_f64_mean (col : List (List ℚ)) : Option ℚ :=
  let sc := col.foldl
    (fun acc c => (acc.1 + galleon_sum_f64 c, acc.2 + c.length)) ((0 : ℚ), (0 : ℕ))
  if sc.2 = 0 then none else some (sc.1 / sc.2)

/-! ## Group-by engine -/

/-- Position of the first occurrence of g in a list (0 past the end when
absent); the group id of a seen hash is its position in the first-seen
list, and the first-row index of a group is the first row carrying its id. -/
def firstIdx (g : ℕ) : List ℕ → ℕ
  | [] => 0
  | a :: l => if a = g then 0 else firstIdx g l + 1

/-- Number of occurrences of g in a list. -/
def countKey (g : ℕ) (l : List ℕ) : ℕ :=
  l.countP (fun x => decide (x = g))

/-- Modelled from the spec: the group-id assignment scan of
`galleon_groupby_compute` / `galleon_groupby_compute_ext` (spec section
4.7): for each row probe the hash table (modelled as the list `seen` of
distinct hashes in first-seen order, the id of a hash being its position);
on miss allocate the next dense id, on hit reuse the id.  Returns the
per-row group-id list and the final first-seen hash list. -/
def groupScan : List ℕ → List ℕ → List ℕ × List ℕ
  | seen, [] => ([], seen)
  | seen, h :: rest =>
    if h ∈ seen then
      (firstIdx h seen :: (groupScan seen rest).1, (groupScan seen rest).2)
    else
      (seen.length :: (groupScan (seen ++ [h]) rest).1, (groupScan (seen ++ [h]) rest).2)

/-- Extended group-by result (spec section 3): per-row group ids, the group
count G, the first row of each group and the per-group row counts. -/
structure GroupByResultExt where
  group_ids : List ℕ
  num_groups : ℕ
  first_row_idx : List ℕ
  group_counts : List ℕ

/-- Modelled from the spec: `galleon_groupby_compute_ext(hashes, len)`
(header line 308): run the scan from an empty table; `first_row_idx[g]` is
the smallest row index with id g (set on group creation) and
`group_counts[g]` the number of rows with id g (incremented per row). -/
def galleon_groupby_compute_ext (hashes : List ℕ) : GroupByResultExt :=
  let p := groupScan [] hashes
  { group_ids := p.1
    num_groups := p.2.length
    first_row_idx := (List.range p.2.length).map (fun g => firstIdx g p.1)
    group_counts := (List.range p.2.length).map (fun g => countKey g p.1) }

/-! ## Hash-join engine -/

/-- Reduction into unsigned 64-bit range. -/
def U64 (n : ℕ) : ℕ := n % 2 ^ 64

/-- Modelled from the spec: the splitmix-style integer mix used by
`galleon_hash_i64_column` (spec section 4.2, "integers use a mix, e.g.
splitmix-style"): the standard splitmix64 finalizer, all arithmetic mod
2^64. -/
def splitmix64 (x : ℕ) : ℕ :=
  let z1 := U64 ((x ^^^ (x >>> 30)) * 0xbf58476d1ce4e5b9)
  let z2 := U64 ((z1 ^^^ (z1 >>> 27)) * 0x94d049bb133111eb)
  U64 (z2 ^^^ (z2 >>> 31))

/-- Per-element 64-bit hash of an i64 key: reinterpret the key as its
unsigned 64-bit pattern, then mix. -/
def hash_i64 (k : ℤ) : ℕ :=
  splitmix64 (k % (2 : ℤ) ^ 64).toNat

/-- Smallest power of two that is at least n (1 for n ≤ 1), computed by
halving; the first argument is recursion fuel (n suffices). -/
def nextPow2Aux : ℕ → ℕ → ℕ
  | 0, _ => 1
  | fuel + 1, n => if n ≤ 1 then 1 else 2 * nextPow2Aux fuel ((n + 1) / 2)

/-- Modelled from the spec: head-table size T = next_pow2(max(N*2, 16))
(spec section 4.6 Build). -/
def tableSize (n : ℕ) : ℕ :=
  nextPow2Aux (max (2 * n) 16) (max (2 * n) 16)

/-- Bucket of a hash: the spec masks with T-1; for the power-of-two table
size this equals reduction mod T. -/
def bucket (T h : ℕ) : ℕ := h % T

/-- Modelled from the spec (section 4.6 Build, the insertion loop): the
head-of-chain entry for bucket b after inserting build rows 0..n-1 in
order — the most recent row with bucket b, or -1 when the bucket is
empty.  `bkt i` is the bucket of build row i. -/
def headAfter (bkt : ℕ → ℕ) : ℕ → ℕ → ℤ
  | 0, _ => -1
  | n + 1, b => if bkt n = b then (n : ℤ) else headAfter bkt n b

/-- Modelled from the spec (section 4.6 Build): next[i] is the head of
row i's bucket at the time row i was inserted, linking rows of one bucket
in decreasing insertion order. -/
def nextLink (bkt : ℕ → ℕ) (i : ℕ) : ℤ :=
  headAfter bkt i (bkt i)

/-- Walk a chain from entry c through the next links, collecting build row
indices; -1 terminates.  The fuel argument bounds the walk (chain entries
strictly decrease, so the build length suffices). -/
def chainWalk (nx : ℕ → ℤ) : ℕ → ℤ → List ℕ
  | 0, _ => []
  | fuel + 1, c => if c < 0 then [] else c.toNat :: chainWalk nx fuel (nx c.toNat)

/-- Bucket of build row i for the table built over bkeys. -/
def buildBkt (bkeys : List ℤ) (i : ℕ) : ℕ :=
  bucket (tableSize bkeys.length) (hash_i64 (bkeys.getD i 0))

/-- Modelled from the spec (section 4.6 Probe, one probe row): walk the
chain of the probe key's bucket and keep the candidates whose build key
equals the probe key, in chain order. -/
def probeRow (bkeys : List ℤ) (pk : ℤ) : List ℕ :=
  (chainWalk (nextLink (buildBkt bkeys)) bkeys.length
      (headAfter (buildBkt bkeys) bkeys.length
        (bucket (tableSize bkeys.length) (hash_i64 pk)))).filter
    (fun c => decide (bkeys.getD c 0 = pk))

/-- All matches of probing pkeys against the chained table over bkeys:
probe-row-major, chain order within a probe row; pairs are (probe row,
build row). -/
def probePairsAll (pkeys bkeys : List ℤ) : List (ℕ × ℕ) :=
  ((List.range pkeys.length).map
    (fun p => (probeRow bkeys (pkeys.getD p 0)).map (fun c => (p, c)))).flatten

/-- Modelled from the spec: `galleon_probe_join_hash_table` (header lines
256-260) with its max_matches cap: emit each match while the emitted count
is still below the cap, otherwise drop it (spec section 7: truncate at
max_matches; the caller reads the returned count, here the list length). -/
def galleon_probe_join_hash_table (pkeys bkeys : List ℤ) (maxMatches : ℕ) :
    List (ℕ × ℕ) :=
  (probePairsAll pkeys bkeys).foldl
    (fun acc pr => if acc.length < maxMatches then acc ++ [pr] else acc) []

/-- Modelled from the spec: `galleon_inner_join_e2e_i64` (header lines
268-269): hash both sides, build on the smaller side, probe the other
(spec section 4.6).  The result rows are (left row, right row);
left_indices / right_indices are the two projections and num_matches the
length. -/
def galleon_inner_join_e2e_i64 (L R : List ℤ) : List (ℕ × ℕ) :=
  if R.length < L.length then
    probePairsAll L R
  else
    (probePairsAll R L).map (fun pr => (pr.2, pr.1))

/-- Modelled from the spec (section 4.6, Left outer join): the output rows
for one left row — its chain matches (l, r), or the single sentinel row
(l, -1) when the chain yields no equal key. -/
def leftJoinRow (L R : List ℤ) (l : ℕ) : List (ℕ × ℤ) :=
  let ms := probeRow R (L.getD l 0)
  if ms.isEmpty then [(l, (-1 : ℤ))]
  else ms.map (fun r : ℕ => (l, (r : ℤ)))

/-- Modelled from the spec: `galleon_left_join_i64` (header lines 283-284):
always build on the right; emit the per-left-row blocks in left row order
(left-major; within a left row, chain order). -/
def galleon_left_join_i64 (L R : List ℤ) : List (ℕ × ℤ) :=
  ((List.range L.length).map (leftJoinRow L R)).flatten

/-- Occurrence count of one row pair in an inner-join result. -/
def countPair (pr : ℕ × ℕ) (l : List (ℕ × ℕ)) : ℕ :=
  l.countP (fun x => decide (x = pr))

/-- Occurrence count of a build index in a match list. -/
def countIdx (r : ℕ) (l : List ℕ) : ℕ :=
  l.countP (fun x => decide (x = r))

/-! ## Helper theorems -/

theorem argsortRel_true_iff {α : Type} [LinearOrder α] [Inhabited α]
    (data : List α) (i j : ℕ) :
    argsortRel data true i j ↔
      (keyAt data i < keyAt data j ∨ (keyAt data i = keyAt data j ∧ i ≤ j)) := by
  simp [argsortRel]

theorem argsortRel_false_iff {α : Type} [LinearOrder α] [Inhabited α]
    (data : List α) (i j : ℕ) :
    argsortRel data false i j ↔
      (keyAt data j < keyAt data i ∨ (keyAt data i = keyAt data j ∧ i ≤ j)) := by
  simp [argsortRel]

theorem argsortRel_total {α : Type} [LinearOrder α] [Inhabited α]
    (data : List α) (ascending : Bool) (i j : ℕ) :
    argsortRel data ascending i j ∨ argsortRel data ascending j i := by
  rcases Nat.le_total i j with hij | hij <;>
    rcases lt_trichotomy (keyAt data i) (keyAt data j) with h | h | h <;>
    cases ascending <;>
    simp only [argsortRel_true_iff, argsortRel_false_iff] <;>
    first
      | exact Or.inl (Or.inl h)
      | exact Or.inr (Or.inl h)
      | exact Or.inl (Or.inr ⟨h, hij⟩)
      | exact Or.inr (Or.inr ⟨h.symm, hij⟩)

theorem argsortRel_trans {α : Type} [LinearOrder α] [Inhabited α]
    (data : List α) (ascending : Bool) (i j k : ℕ)
    (hij : argsortRel data ascending i j) (hjk : argsortRel data ascending j k) :
    argsortRel data ascending i k := by
  cases ascending <;>
    simp only [argsortRel_true_iff, argsortRel_false_iff] at * <;>
    rcases hij with h1 | ⟨e1, l1⟩ <;> rcases hjk with h2 | ⟨e2, l2⟩
  · exact Or.inl (h2.trans h1)
  · exact Or.inl (e2 ▸ h1)
  · exact Or.inl (e1 ▸ h2)
  · exact Or.inr ⟨e1.trans e2, l1.trans l2⟩
  · exact Or.inl (h1.trans h2)
  · exact Or.inl (e2 ▸ h1)
  · exact Or.inl (e1 ▸ h2)
  · exact Or.inr ⟨e1.trans e2, l1.trans l2⟩

/-- Pairwise conjunction helper used to combine sortedness with nodup. -/
theorem pairwise_and_aux {α : Type} {R S : α → α → Prop} :
    ∀ {l : List α}, l.Pairwise R → l.Pairwise S →
      l.Pairwise (fun a b => R a b ∧ S a b) := by
  intro l h1 h2
  induction l with
  | nil => exact List.Pairwise.nil
  | cons a l ih =>
    rcases List.pairwise_cons.mp h1 with ⟨hR, hRl⟩
    rcases List.pairwise_cons.mp h2 with ⟨hS, hSl⟩
    exact List.pairwise_cons.mpr ⟨fun b hb => ⟨hR b hb, hS b hb⟩, ih hRl hSl⟩

/-! ## Theorems for the counting, aggregation, filter and gather claims -/

/-- C10: for every bool array and length, count_true + count_false equals the
length — the two counts partition the elements — and each count is at most
the length. -/
theorem count_true_add_count_false (data : List Bool) :
    galleon_count_true data + galleon_count_false data = data.length ∧
    galleon_count_true data ≤ data.length ∧
    galleon_count_false data ≤ data.length := by
  have hsum : galleon_count_true data + galleon_count_false data = data.length := by
    induction data with
    | nil => rfl
    | cons b l ih =>
      cases b <;>
        simp [galleon_count_true, galleon_count_false, List.countP_cons] at * <;>
        omega
  exact ⟨hsum, by omega, by omega⟩

/-- C9: on empty input, sum_f64 returns 0.0 and sum_i64 returns 0; min, max
and mean of f64 return NaN (modelled as `none`); and every statistics
operation whose signature provides an out_valid out-parameter — median,
quantile, skewness, kurtosis, correlation, variance and stddev — sets it
to false, so the caller ignores the returned value. -/
theorem empty_aggregation_results :
    galleon_sum_f64 [] = 0 ∧ galleon_sum_i64 [] = 0 ∧
    galleon_min_f64 [] = none ∧ galleon_max_f64 [] = none ∧
    galleon_mean_f64 [] = none ∧
    (galleon_median_f64 []).2 = false ∧ (galleon_variance_f64 []).2 = false ∧
    (∀ q : ℚ, (galleon_quantile_f64 [] q).2 = false) ∧
    (galleon_skewness_f64 []).2 = false ∧
    (galleon_kurtosis_f64 []).2 = false ∧
    (∀ ys : List ℚ, (galleon_correlation_f64 [] ys).2 = false) ∧
    (galleon_stddev_f64 []).2 = false := by
  have hvar : (galleon_variance_f64 []).2 = false := by
    simp [galleon_variance_f64]
  refine ⟨rfl, rfl, rfl, rfl, rfl, rfl, hvar, fun q => rfl, rfl, rfl,
    fun ys => rfl, ?_⟩
  simpa [galleon_stddev_f64] using hvar

/-- C4: the packed index list of filter_gt_f64 coincides with
indices_from_mask applied to the byte mask of filter_mask_u8_gt_f64
(given output capacity for all hits); both hold exactly the indices i with
data[i] > t, in strictly ascending order, and the count equals the number
of such indices. -/
theorem filter_gt_eq_indices_from_mask (data : List ℚ) (t : ℚ) (maxI : ℕ)
    (hcap : (galleon_filter_gt_f64 data t).2 ≤ maxI) :
    galleon_indices_from_mask (galleon_filter_mask_u8_gt_f64 data t) maxI
      = galleon_filter_gt_f64 data t ∧
    (∀ i, i ∈ (galleon_filter_gt_f64 data t).1 ↔
      i < data.length ∧ t < data.getD i 0) ∧
    List.Pairwise (· < ·) (galleon_filter_gt_f64 data t).1 ∧
    (galleon_filter_gt_f64 data t).2 = (galleon_filter_gt_f64 data t).1.length := by
  have hlen : (galleon_filter_mask_u8_gt_f64 data t).length = data.length := by
    simp [galleon_filter_mask_u8_gt_f64]
  have hfe : (List.range data.length).filter
        (fun i => (galleon_filter_mask_u8_gt_f64 data t).getD i false)
      = (List.range data.length).filter (fun i => decide (t < data.getD i 0)) := by
    apply List.filter_congr
    intro i hi
    have hilt : i < data.length := List.mem_range.mp hi
    simp [galleon_filter_mask_u8_gt_f64, List.getD_eq_getElem?_getD,
      List.getElem?_eq_getElem, hilt]
  refine ⟨?_, ?_, ?_, rfl⟩
  · have hc : (galleon_filter_gt_f64 data t).1.length ≤ maxI := hcap
    simp only [galleon_indices_from_mask, hlen, hfe]
    simp only [galleon_filter_gt_f64] at hc ⊢
    rw [List.take_of_length_le hc]
  · intro i
    simp [galleon_filter_gt_f64, List.mem_filter, List.mem_range]
  · exact ((List.pairwise_lt_range _).sublist (List.filter_sublist _))

/-- C4 witness: spec scenario 2 — data [5, 1, 7, 3, 9], threshold 3 gives
indices [0, 2, 4] and count 3, and the mask route agrees. -/
theorem filter_gt_eq_indices_from_mask_witness :
    galleon_indices_from_mask
        (galleon_filter_mask_u8_gt_f64 [5, 1, 7, 3, 9] 3) 5
      = galleon_filter_gt_f64 [5, 1, 7, 3, 9] 3 ∧
    galleon_filter_gt_f64 [5, 1, 7, 3, 9] 3 = ([0, 2, 4], 3) :=
  ⟨(filter_gt_eq_indices_from_mask [5, 1, 7, 3, 9] 3 5 (by decide)).1, by decide⟩

/-- C7: gather with i32 indices writes src[indices[i]] for in-range indices
and the type sentinel for out-of-range indices (NaN, modelled none, for
f64; zero for i64), never aborting — the output always has dst_len
elements. -/
theorem gather_in_range_or_sentinel (srcQ : List ℚ) (srcZ : List ℤ)
    (indices : List ℤ) (i : ℕ) (hi : i < indices.length) :
    (galleon_gather_f64 srcQ indices).length = indices.length ∧
    (galleon_gather_i64 srcZ indices).length = indices.length ∧
    (0 ≤ indices[i] ∧ indices[i] < (srcQ.length : ℤ) →
      (galleon_gather_f64 srcQ indices).getD i none
        = some (srcQ.getD indices[i].toNat 0)) ∧
    (¬ (0 ≤ indices[i] ∧ indices[i] < (srcQ.length : ℤ)) →
      (galleon_gather_f64 srcQ indices).getD i none = none) ∧
    (0 ≤ indices[i] ∧ indices[i] < (srcZ.length : ℤ) →
      (galleon_gather_i64 srcZ indices).getD i 0
        = srcZ.getD indices[i].toNat 0) ∧
    (¬ (0 ≤ indices[i] ∧ indices[i] < (srcZ.length : ℤ)) →
      (galleon_gather_i64 srcZ indices).getD i 0 = 0) := by
  have hmapQ : ∀ (src : List (Option ℚ)) (sent : Option ℚ),
      (galleon_gather src sent indices).getD i sent
        = (if 0 ≤ indices[i] ∧ indices[i].toNat < src.length then
            src.getD indices[i].toNat sent else sent) := by
    intro src sent
    simp [galleon_gather, List.getD_eq_getElem?_getD, List.getElem?_map,
      List.getElem?_eq_getElem, hi]
  have hmapZ : (galleon_gather srcZ 0 indices).getD i 0
      = (if 0 ≤ indices[i] ∧ indices[i].toNat < srcZ.length then
          srcZ.getD indices[i].toNat 0 else 0) := by
    simp [galleon_gather, List.getD_eq_getElem?_getD, List.getElem?_map,
      List.getElem?_eq_getElem, hi]
  refine ⟨by simp [galleon_gather_f64, galleon_gather],
    by simp [galleon_gather_i64, galleon_gather], ?_, ?_, ?_, ?_⟩
  · rintro ⟨h0, hlt⟩
    have htn : indices[i].toNat < srcQ.length := by omega
    rw [galleon_gather_f64, hmapQ (srcQ.map some) none, if_pos ⟨h0, by simpa using htn⟩]
    simp [List.getD_eq_getElem?_getD, List.getElem?_map, List.getElem?_eq_getElem, htn]
  · intro hnot
    rw [galleon_gather_f64, hmapQ (srcQ.map some) none, if_neg]
    intro hcon
    rcases hcon with ⟨h0, hlt⟩
    rw [List.length_map] at hlt
    exact hnot ⟨h0, by omega⟩
  · rintro ⟨h0, hlt⟩
    have htn : indices[i].toNat < srcZ.length := by omega
    rw [galleon_gather_i64, hmapZ, if_pos ⟨h0, htn⟩]
  · intro hnot
    rw [galleon_gather_i64, hmapZ, if_neg]
    rintro ⟨h0, hlt⟩
    exact hnot ⟨h0, by omega⟩

/-- C7 witness: gather over src [10, 20] (f64) and [7, 8] (i64) with indices
[1, -1]: position 0 is in range and copies the source element, position 1
is negative and produces the sentinel. -/
theorem gather_in_range_or_sentinel_witness :
    (galleon_gather_f64 [10, 20] [1, -1]).getD 0 none = some 20 ∧
    (galleon_gather_f64 [10, 20] [1, -1]).getD 1 none = none ∧
    (galleon_gather_i64 [7, 8] [1, -1]).getD 0 0 = 8 ∧
    (galleon_gather_i64 [7, 8] [1, -1]).getD 1 0 = 0 := by
  have h0 := gather_in_range_or_sentinel [10, 20] [7, 8] [1, -1] 0 (by decide)
  have h1 := gather_in_range_or_sentinel [10, 20] [7, 8] [1, -1] 1 (by decide)
  refine ⟨?_, h1.2.2.2.1 (by decide), ?_, h1.2.2.2.2.2 (by decide)⟩
  · have := h0.2.2.1 (by constructor <;> decide)
    simpa using this
  · have := h0.2.2.2.2.1 (by constructor <;> decide)
    simpa using this

/-- C5: argsort (expressed once over the element type, covering the f64, f32,
i64 and i32 variants) produces a permutation of [0, L) that sorts the data by
key in the requested direction, and the sort is stable: positions holding
equal keys appear with strictly increasing original indices. -/
theorem argsort_perm_sorted_stable {α : Type} [LinearOrder α] [Inhabited α]
    (data : List α) (ascending : Bool) :
    (galleon_argsort data ascending).Perm (List.range data.length) ∧
    List.Pairwise (fun i j =>
      (if ascending then keyAt data i ≤ keyAt data j
        else keyAt data j ≤ keyAt data i) ∧
      (keyAt data i = keyAt data j → i < j))
      (galleon_argsort data ascending) := by
  have hperm : (galleon_argsort data ascending).Perm (List.range data.length) :=
    List.perm_insertionSort _ _
  refine ⟨hperm, ?_⟩
  haveI : IsTotal ℕ (argsortRel data ascending) := ⟨argsortRel_total data ascending⟩
  haveI : IsTrans ℕ (argsortRel data ascending) :=
    ⟨argsortRel_trans data ascending⟩
  have hsorted : List.Pairwise (argsortRel data ascending)
      (galleon_argsort data ascending) :=
    List.sorted_insertionSort _ _
  have hnodup : List.Pairwise (fun a b : ℕ => a ≠ b)
      (galleon_argsort data ascending) :=
    hperm.nodup_iff.mpr (List.nodup_range _)
  have hcomb := pairwise_and_aux hsorted hnodup
  refine hcomb.imp ?_
  rintro i j ⟨hrel, hne⟩
  cases ascending <;>
    simp only [argsortRel_true_iff, argsortRel_false_iff] at hrel <;>
    simp only [if_pos, if_neg, Bool.false_eq_true, ite_false, ite_true] <;>
    rcases hrel with h | ⟨he, hle⟩
  · exact ⟨h.le, fun he => absurd he.symm h.ne⟩
  · exact ⟨he.ge, fun _ => lt_of_le_of_ne hle hne⟩
  · exact ⟨h.le, fun he => absurd he h.ne⟩
  · exact ⟨he.le, fun _ => lt_of_le_of_ne hle hne⟩

/-- C5 witness-style example: spec scenario 3 — data [2, 1, 2, 1] ascending
gives indices [1, 3, 0, 2]. -/
theorem argsort_spec_example :
    galleon_argsort ([2, 1, 2, 1] : List ℤ) true = [1, 3, 0, 2] := by
  decide

/-! ## Chunked column lemmas -/

theorem chunksOf_flatten (l : List ℚ) : (chunksOf l).flatten = l := by
  induction l using chunksOf.induct with
  | case1 => simp [chunksOf]
  | case2 x xs ih =>
    rw [chunksOf]
    simp only [List.flatten_cons, ih, List.take_append_drop]

theorem foldl_add_shift (l : List ℚ) :
    ∀ acc : ℚ, l.foldl (fun a x => a + x) acc
      = acc + l.foldl (fun a x => a + x) 0 := by
  induction l with
  | nil => intro acc; simp
  | cons x xs ih =>
    intro acc
    simp only [List.foldl_cons]
    rw [ih (acc + x), ih (0 + x)]
    ring

theorem galleon_sum_append (a b : List ℚ) :
    galleon_sum_f64 (a ++ b) = galleon_sum_f64 a + galleon_sum_f64 b := by
  unfold galleon_sum_f64
  rw [List.foldl_append, foldl_add_shift b]

theorem galleon_sum_flatten_eq (L : List (List ℚ)) :
    galleon_sum_f64 L.flatten
      = (L.map galleon_sum_f64).foldl (fun a x => a + x) 0 := by
  induction L with
  | nil => rfl
  | cons c L ih =>
    simp only [List.flatten_cons, List.map_cons, List.foldl_cons]
    rw [galleon_sum_append, ih, foldl_add_shift (L.map galleon_sum_f64) (0 + galleon_sum_f64 c)]
    ring

theorem foldl_f_assoc (f : ℚ → ℚ → ℚ) (hf : ∀ a b c, f (f a b) c = f a (f b c)) :
    ∀ (ys : List ℚ) (m y : ℚ), ys.foldl f (f m y) = f m (ys.foldl f y) := by
  intro ys
  induction ys with
  | nil => intro m y; rfl
  | cons z ys ih =>
    intro m y
    simp only [List.foldl_cons]
    rw [hf m y z]
    exact ih m (f y z)

theorem foldOpt_append (f : ℚ → ℚ → ℚ) (hf : ∀ a b c, f (f a b) c = f a (f b c))
    (a b : List ℚ) :
    foldOpt f (a ++ b) = optCombine f (foldOpt f a) (foldOpt f b) := by
  cases a with
  | nil => rfl
  | cons x xs =>
    cases b with
    | nil => simp [foldOpt, optCombine]
    | cons y ys =>
      simp only [foldOpt, List.cons_append, List.foldl_append, List.foldl_cons, optCombine]
      rw [foldl_f_assoc f hf ys (xs.foldl f x) y]

theorem optCombine_assoc (f : ℚ → ℚ → ℚ)
    (hf : ∀ a b c, f (f a b) c = f a (f b c)) (a b c : Option ℚ) :
    optCombine f (optCombine f a b) c = optCombine f a (optCombine f b c) := by
  cases a <;> cases b <;> cases c <;> simp [optCombine, hf]

theorem foldl_optCombine (f : ℚ → ℚ → ℚ)
    (hf : ∀ a b c, f (f a b) c = f a (f b c)) :
    ∀ (col : List (List ℚ)) (acc : Option ℚ),
      (col.map (foldOpt f)).foldl (optCombine f) acc
        = optCombine f acc (foldOpt f col.flatten) := by
  intro col
  induction col with
  | nil => intro acc; cases acc <;> rfl
  | cons c col ih =>
    intro acc
    simp only [List.map_cons, List.foldl_cons, List.flatten_cons]
    rw [foldOpt_append f hf, ih (optCombine f acc (foldOpt f c)),
      optCombine_assoc f hf]

theorem foldl_sum_count (col : List (List ℚ)) :
    ∀ (s : ℚ) (n : ℕ),
      col.foldl (fun acc c => (acc.1 + galleon_sum_f64 c, acc.2 + c.length)) (s, n)
        = (s + galleon_sum_f64 col.flatten, n + col.flatten.length) := by
  induction col with
  | nil =>
    intro s n
    simp [galleon_sum_f64]
  | cons c col ih =>
    intro s n
    simp only [List.foldl_cons, List.flatten_cons, List.length_append]
    rw [ih, galleon_sum_append]
    refine Prod.ext ?_ ?_
    · simp; ring
    · simp; omega

/-- C6: every aggregation over the chunked column created from a dense f64
buffer agrees with the flat aggregation: min and max exactly, and sum and
mean exactly under associative regrouping (the model uses exact rational
arithmetic, in which the reordering error ε of the spec is zero). -/
theorem chunked_agg_eq_flat (data : List ℚ) :
    galleon_chunked_f64_min (galleon_chunked_f64_create data) = galleon_min_f64 data ∧
    galleon_chunked_f64_max (galleon_chunked_f64_create data) = galleon_max_f64 data ∧
    galleon_chunked_f64_sum (galleon_chunked_f64_create data) = galleon_sum_f64 data ∧
    galleon_chunked_f64_mean (galleon_chunked_f64_create data) = galleon_mean_f64 data := by
  refine ⟨?_, ?_, ?_, ?_⟩
  · show (List.map galleon_min_f64 (chunksOf data)).foldl (optCombine min) none
      = galleon_min_f64 data
    have : List.map galleon_min_f64 (chunksOf data)
        = List.map (foldOpt min) (chunksOf data) := rfl
    rw [this, foldl_optCombine min (fun a b c => min_assoc a b c) (chunksOf data) none,
      chunksOf_flatten]
    rfl
  · show (List.map galleon_max_f64 (chunksOf data)).foldl (optCombine max) none
      = galleon_max_f64 data
    have : List.map galleon_max_f64 (chunksOf data)
        = List.map (foldOpt max) (chunksOf data) := rfl
    rw [this, foldl_optCombine max (fun a b c => max_assoc a b c) (chunksOf data) none,
      chunksOf_flatten]
    rfl
  · show (List.map galleon_sum_f64 (chunksOf data)).foldl (fun a x => a + x) 0
      = galleon_sum_f64 data
    rw [← galleon_sum_flatten_eq, chunksOf_flatten]
  · show galleon_chunked_f64_mean (chunksOf data) = galleon_mean_f64 data
    unfold galleon_chunked_f64_mean
    rw [foldl_sum_count, chunksOf_flatten]
    cases data with
    | nil => simp [galleon_mean_f64]
    | cons x xs =>
      simp only [List.length_cons, Nat.zero_add, Nat.add_eq_zero]
      rw [if_neg (by omega)]
      simp [galleon_mean_f64, galleon_sum_f64]

/-! ## Group-by lemmas -/

theorem firstIdx_lt_length {g : ℕ} :
    ∀ {l : List ℕ}, g ∈ l → firstIdx g l < l.length := by
  intro l
  induction l with
  | nil => intro h; cases h
  | cons a l ih =>
    intro hmem
    by_cases hag : a = g
    · simp [firstIdx, hag]
    · have : g ∈ l := by
        cases List.mem_cons.mp hmem with
        | inl h => exact absurd h.symm hag
        | inr h => exact h
      simp only [firstIdx, if_neg hag, List.length_cons]
      exact Nat.succ_lt_succ (ih this)

theorem getD_firstIdx {g : ℕ} :
    ∀ {l : List ℕ}, g ∈ l → l.getD (firstIdx g l) 0 = g := by
  intro l
  induction l with
  | nil => intro h; cases h
  | cons a l ih =>
    intro hmem
    by_cases hag : a = g
    · simp [firstIdx, hag]
    · have : g ∈ l := by
        cases List.mem_cons.mp hmem with
        | inl h => exact absurd h.symm hag
        | inr h => exact h
      simp only [firstIdx, if_neg hag]
      simpa using ih this

theorem groupScan_fst_length :
    ∀ (rest seen : List ℕ), (groupScan seen rest).1.length = rest.length := by
  intro rest
  induction rest with
  | nil => intro seen; rfl
  | cons h rest ih =>
    intro seen
    by_cases hmem : h ∈ seen <;> simp [groupScan, hmem, ih]

theorem groupScan_seen_le :
    ∀ (rest seen : List ℕ), seen.length ≤ (groupScan seen rest).2.length := by
  intro rest
  induction rest with
  | nil => intro seen; exact le_refl _
  | cons h rest ih =>
    intro seen
    by_cases hmem : h ∈ seen
    · simpa [groupScan, hmem] using ih seen
    · have := ih (seen ++ [h])
      simp only [List.length_append, List.length_cons, List.length_nil] at this
      simp only [groupScan, if_neg hmem]
      omega

theorem groupScan_mem_lt :
    ∀ (rest seen : List ℕ), ∀ g ∈ (groupScan seen rest).1,
      g < (groupScan seen rest).2.length := by
  intro rest
  induction rest with
  | nil => intro seen g hg; cases hg
  | cons h rest ih =>
    intro seen g hg
    by_cases hmem : h ∈ seen
    · simp only [groupScan, if_pos hmem] at hg ⊢
      cases List.mem_cons.mp hg with
      | inl he =>
        have h1 : firstIdx h seen < seen.length := firstIdx_lt_length hmem
        have h2 := groupScan_seen_le rest seen
        omega
      | inr ht => exact ih seen g ht
    · simp only [groupScan, if_neg hmem] at hg ⊢
      cases List.mem_cons.mp hg with
      | inl he =>
        have h2 := groupScan_seen_le rest (seen ++ [h])
        simp only [List.length_append, List.length_cons, List.length_nil] at h2
        omega
      | inr ht => exact ih (seen ++ [h]) g ht

theorem groupScan_coverage :
    ∀ (rest seen : List ℕ) (g : ℕ), seen.length ≤ g →
      g < (groupScan seen rest).2.length → g ∈ (groupScan seen rest).1 := by
  intro rest
  induction rest with
  | nil =>
    intro seen g hle hlt
    simp only [groupScan] at hlt
    omega
  | cons h rest ih =>
    intro seen g hle hlt
    by_cases hmem : h ∈ seen
    · simp only [groupScan, if_pos hmem] at hlt ⊢
      exact List.mem_cons.mpr (Or.inr (ih seen g hle hlt))
    · simp only [groupScan, if_neg hmem] at hlt ⊢
      rcases Nat.eq_or_lt_of_le hle with he | hgt

      · exact List.mem_cons.mpr (Or.inl he.symm)
      · refine List.mem_cons.mpr (Or.inr (ih (seen ++ [h]) g ?_ hlt))
        simp only [List.length_append, List.length_cons, List.length_nil]
        omega

theorem groupScan_order :
    ∀ (rest seen : List ℕ) (g g2 : ℕ), seen.length ≤ g → g < g2 →
      g2 ∈ (groupScan seen rest).1 →
      g ∈ (groupScan seen rest).1 ∧
        firstIdx g (groupScan seen rest).1 < firstIdx g2 (groupScan seen rest).1 := by
  intro rest
  induction rest with
  | nil => intro seen g g2 hle hlt hg2; cases hg2
  | cons h rest ih =>
    intro seen g g2 hle hlt hg2
    by_cases hmem : h ∈ seen
    · simp only [groupScan, if_pos hmem] at hg2 ⊢
      have hhead : firstIdx h seen < seen.length := firstIdx_lt_length hmem
      have hne_g : firstIdx h seen ≠ g := by omega
      have hne_g2 : firstIdx h seen ≠ g2 := by omega
      have hg2t : g2 ∈ (groupScan seen rest).1 := by
        cases List.mem_cons.mp hg2 with
        | inl he => exact absurd he.symm hne_g2
        | inr ht => exact ht
      rcases ih seen g g2 hle hlt hg2t with ⟨hgt, hidx⟩
      refine ⟨List.mem_cons.mpr (Or.inr hgt), ?_⟩
      simp only [firstIdx, if_neg hne_g, if_neg hne_g2]
      omega
    · simp only [groupScan, if_neg hmem] at hg2 ⊢
      rcases Nat.eq_or_lt_of_le hle with he | hgt
      · -- g is the id allocated at this row: it heads the id list
        have hne_g2 : seen.length ≠ g2 := by omega
        have hg2t : g2 ∈ (groupScan (seen ++ [h]) rest).1 := by
          cases List.mem_cons.mp hg2 with
          | inl he2 => exact absurd he2.symm hne_g2
          | inr ht => exact ht
        constructor
        · exact List.mem_cons.mpr (Or.inl he.symm)
        · rw [← he]
          simp [firstIdx, hne_g2]
      · have hne_g : seen.length ≠ g := by omega
        have hne_g2 : seen.length ≠ g2 := by omega
        have hg2t : g2 ∈ (groupScan (seen ++ [h]) rest).1 := by
          cases List.mem_cons.mp hg2 with
          | inl he2 => exact absurd he2.symm hne_g2
          | inr ht => exact ht
        have hle2 : (seen ++ [h]).length ≤ g := by
          simp only [List.length_append, List.length_cons, List.length_nil]
          omega
        rcases ih (seen ++ [h]) g g2 hle2 hlt hg2t with ⟨hgt2, hidx⟩
        refine ⟨List.mem_cons.mpr (Or.inr hgt2), ?_⟩
        simp only [firstIdx, if_neg hne_g, if_neg hne_g2]
        omega

theorem sum_map_add_split (l : List ℕ) (f g : ℕ → ℕ) :
    (l.map (fun x => f x + g x)).sum = (l.map f).sum + (l.map g).sum := by
  induction l with
  | nil => rfl
  | cons a l ih => simp [ih]; omega

theorem sum_indicator_range (x : ℕ) :
    ∀ G : ℕ, ((List.range G).map (fun g => if x = g then 1 else 0)).sum
      = if x < G then 1 else 0 := by
  intro G
  induction G with
  | zero => simp
  | succ G ih =>
    rw [List.range_succ]
    simp only [List.map_append, List.sum_append, ih, List.map_cons, List.map_nil,
      List.sum_cons, List.sum_nil]
    split_ifs <;> omega

theorem countKey_partition (l : List ℕ) (G : ℕ) (hall : ∀ x ∈ l, x < G) :
    ((List.range G).map (fun g => countKey g l)).sum = l.length := by
  induction l with
  | nil => simp [countKey]
  | cons x l ih =>
    have hx : x < G := hall x (List.mem_cons_self x l)
    have hrest : ∀ y ∈ l, y < G := fun y hy => hall y (List.mem_cons_of_mem x hy)
    have hcons : ∀ g, countKey g (x :: l) = countKey g l + (if x = g then 1 else 0) := by
      intro g
      simp [countKey, List.countP_cons]
    calc ((List.range G).map (fun g => countKey g (x :: l))).sum
        = ((List.range G).map (fun g => countKey g l + (if x = g then 1 else 0))).sum := by
          simp only [hcons]
      _ = ((List.range G).map (fun g => countKey g l)).sum
            + ((List.range G).map (fun g => if x = g then 1 else 0)).sum :=
          sum_map_add_split _ _ _
      _ = l.length + 1 := by rw [ih hrest, sum_indicator_range x G, if_pos hx]
      _ = (x :: l).length := by simp

theorem foldl_max_lt (G : ℕ) :
    ∀ (l : List ℕ) (b : ℕ), b < G → (∀ x ∈ l, x < G) → l.foldl max b < G := by
  intro l
  induction l with
  | nil => intro b hb _; exact hb
  | cons a l ih =>
    intro b hb hall
    simp only [List.foldl_cons]
    exact ih (max b a)
      (max_lt hb (hall a (List.mem_cons_self a l)))
      (fun x hx => hall x (List.mem_cons_of_mem a hx))

theorem init_le_foldl_max :
    ∀ (l : List ℕ) (b : ℕ), b ≤ l.foldl max b := by
  intro l
  induction l with
  | nil => intro b; exact le_refl b
  | cons a l ih =>
    intro b
    simp only [List.foldl_cons]
    exact le_trans (le_max_left b a) (ih (max b a))

theorem le_foldl_max :
    ∀ (l : List ℕ) (b x : ℕ), x ∈ l → x ≤ l.foldl max b := by
  intro l
  induction l with
  | nil => intro b x hx; cases hx
  | cons a l ih =>
    intro b x hx
    simp only [List.foldl_cons]
    cases List.mem_cons.mp hx with
    | inl he =>
      rw [he]
      exact le_trans (le_max_right b a) (init_le_foldl_max l (max b a))
    | inr ht => exact ih (max b a) x ht

/-- C3: for a nonempty hash stream, the extended group-by result satisfies
the identities of the spec: ids lie in [0, G), max id + 1 = G, the group
counts sum to the row count, the first row of each group carries that
group id, and ids are assigned in first-seen order (first_row_idx strictly
increasing). -/
theorem groupby_ext_invariants (hashes : List ℕ) (hL : hashes ≠ []) :
    ((galleon_groupby_compute_ext hashes).group_ids.length = hashes.length) ∧
    (∀ g ∈ (galleon_groupby_compute_ext hashes).group_ids,
      g < (galleon_groupby_compute_ext hashes).num_groups) ∧
    ((galleon_groupby_compute_ext hashes).group_ids.foldl max 0 + 1
      = (galleon_groupby_compute_ext hashes).num_groups) ∧
    ((galleon_groupby_compute_ext hashes).group_counts.sum = hashes.length) ∧
    (∀ g < (galleon_groupby_compute_ext hashes).num_groups,
      (galleon_groupby_compute_ext hashes).group_ids.getD
        ((galleon_groupby_compute_ext hashes).first_row_idx.getD g 0) 0 = g) ∧
    List.Pairwise (· < ·) (galleon_groupby_compute_ext hashes).first_row_idx := by
  set ids := (groupScan [] hashes).1 with hids
  set fin := (groupScan [] hashes).2 with hfin
  have hgid : (galleon_groupby_compute_ext hashes).group_ids = ids := rfl
  have hng : (galleon_groupby_compute_ext hashes).num_groups = fin.length := rfl
  have hfri : (galleon_groupby_compute_ext hashes).first_row_idx
      = (List.range fin.length).map (fun g => firstIdx g ids) := rfl
  have hgc : (galleon_groupby_compute_ext hashes).group_counts
      = (List.range fin.length).map (fun g => countKey g ids) := rfl
  rw [hgid, hng, hfri, hgc]
  have hlen : ids.length = hashes.length := groupScan_fst_length hashes []
  have hmem : ∀ g ∈ ids, g < fin.length := groupScan_mem_lt hashes []
  have hcov : ∀ g, g < fin.length → g ∈ ids := fun g hg =>
    groupScan_coverage hashes [] g (Nat.zero_le g) hg
  have hord : ∀ g g2, g < g2 → g2 ∈ ids →
      g ∈ ids ∧ firstIdx g ids < firstIdx g2 ids := fun g g2 =>
    groupScan_order hashes [] g g2 (Nat.zero_le g)
  refine ⟨hlen, hmem, ?_, ?_, ?_, ?_⟩
  · -- max id + 1 = G
    have hne : ids ≠ [] := by
      intro hcon
      apply hL
      have := hlen
      rw [hcon] at this
      exact List.length_eq_zero.mp this.symm
    obtain ⟨i0, irest, hi0⟩ := List.exists_cons_of_ne_nil hne
    have hG1 : 1 ≤ fin.length := by
      have := hmem i0 (hi0 ▸ List.mem_cons_self i0 irest)
      omega
    have hub : ids.foldl max 0 < fin.length := foldl_max_lt fin.length ids 0 hG1 hmem
    have hlb : fin.length - 1 ≤ ids.foldl max 0 :=
      le_foldl_max ids 0 (fin.length - 1) (hcov (fin.length - 1) (by omega))
    omega
  · rw [← hlen]
    exact countKey_partition ids fin.length hmem
  · intro g hg
    have hmemg : g ∈ ids := hcov g hg
    have hfi : ((List.range fin.length).map (fun g => firstIdx g ids)).getD g 0
        = firstIdx g ids := by
      rw [List.getD_eq_getElem?_getD, List.getElem?_map]
      simp [List.getElem?_range hg]
    rw [hfi]
    exact getD_firstIdx hmemg
  · rw [List.pairwise_map]
    have hrange : List.Pairwise (· < ·) (List.range fin.length) :=
      List.pairwise_lt_range _
    have hrange2 : List.Pairwise
        (fun a b => a ∈ List.range fin.length ∧ b ∈ List.range fin.length ∧ a < b)
        (List.range fin.length) := List.Pairwise.and_mem.mp hrange
    refine hrange2.imp ?_
    rintro a b ⟨ha, hb, hab⟩
    have hbG : b < fin.length := List.mem_range.mp hb
    exact (hord a b hab (hcov b hbG)).2

/-- C3 witness: hash stream [10, 20, 10, 20, 10] — ids [0, 1, 0, 1, 0],
two groups, counts summing to 5, first rows 0 and 1. -/
theorem groupby_ext_invariants_witness :
    ((galleon_groupby_compute_ext [10, 20, 10, 20, 10]).group_ids.length = 5) ∧
    ((galleon_groupby_compute_ext [10, 20, 10, 20, 10]).group_counts.sum = 5) ∧
    List.Pairwise (· < ·)
      (galleon_groupby_compute_ext [10, 20, 10, 20, 10]).first_row_idx := by
  have h := groupby_ext_invariants [10, 20, 10, 20, 10] (by decide)
  exact ⟨h.1, h.2.2.2.1, h.2.2.2.2.2⟩

/-! ## Hash-join lemmas -/

/-- The chain reached from the head entry of bucket b, after inserting rows
0..n-1, is exactly the set of build rows with bucket b, in decreasing
insertion order. -/
theorem chainWalk_headAfter (bkt : ℕ → ℕ) :
    ∀ (n b fuel : ℕ), n ≤ fuel →
      chainWalk (nextLink bkt) fuel (headAfter bkt n b)
        = ((List.range n).reverse).filter (fun i => decide (bkt i = b)) := by
  intro n
  induction n with
  | zero =>
    intro b fuel _
    cases fuel with
    | zero => rfl
    | succ f => simp [headAfter, chainWalk]
  | succ n ih =>
    intro b fuel hfuel
    cases fuel with
    | zero => omega
    | succ f =>
      rw [List.range_succ, List.reverse_append]
      simp only [List.reverse_cons, List.reverse_nil, List.nil_append,
        List.singleton_append, List.filter_cons]
      by_cases h : bkt n = b
      · simp only [headAfter, if_pos h]
        simp only [chainWalk]
        rw [if_neg (by omega : ¬ ((n : ℤ) < 0))]
        have htn : ((n : ℤ)).toNat = n := Int.toNat_natCast n
        rw [htn]
        have hnx : nextLink bkt n = headAfter bkt n b := by
          rw [nextLink, h]
        rw [hnx, ih b f (by omega)]
        simp [h]
      · simp only [headAfter, if_neg h]
        rw [ih b (f + 1) (by omega)]
        simp [h]

/-- A probe row sees exactly the build rows with its key, in decreasing
build-row order: candidates on other chains are never visited, and equal
keys hash to the same bucket, so no match is missed. -/
theorem probeRow_eq (bkeys : List ℤ) (pk : ℤ) :
    probeRow bkeys pk
      = ((List.range bkeys.length).reverse).filter
          (fun c => decide (bkeys.getD c 0 = pk)) := by
  unfold probeRow
  rw [chainWalk_headAfter (buildBkt bkeys) bkeys.length
      (bucket (tableSize bkeys.length) (hash_i64 pk)) bkeys.length (le_refl _)]
  rw [List.filter_filter]
  apply List.filter_congr
  intro c _
  by_cases hk : bkeys.getD c 0 = pk
  · have hb : buildBkt bkeys c = bucket (tableSize bkeys.length) (hash_i64 pk) := by
      rw [buildBkt, hk]
    simp [hk, hb]
  · rw [List.getD_eq_getElem?_getD] at hk
    simp [hk]

theorem mem_probePairsAll (pkeys bkeys : List ℤ) (pr : ℕ × ℕ)
    (h : pr ∈ probePairsAll pkeys bkeys) :
    pr.1 < pkeys.length ∧ pr.2 < bkeys.length ∧
      pkeys.getD pr.1 0 = bkeys.getD pr.2 0 := by
  unfold probePairsAll at h
  rcases List.mem_flatten.mp h with ⟨blk, hblk, hpr⟩
  rcases List.mem_map.mp hblk with ⟨p, hp, rfl⟩
  rcases List.mem_map.mp hpr with ⟨c, hc, rfl⟩
  have hplen : p < pkeys.length := List.mem_range.mp hp
  rw [probeRow_eq] at hc
  rcases List.mem_filter.mp hc with ⟨hcr, hkey⟩
  have hclen : c < bkeys.length := List.mem_range.mp (List.mem_reverse.mp hcr)
  exact ⟨hplen, hclen, (of_decide_eq_true hkey).symm⟩

theorem countPair_append (pr : ℕ × ℕ) (a b : List (ℕ × ℕ)) :
    countPair pr (a ++ b) = countPair pr a + countPair pr b := by
  unfold countPair
  exact List.countP_append _ _ _

theorem countPair_map_ne (p l r : ℕ) (cs : List ℕ) (hne : p ≠ l) :
    countPair (l, r) (cs.map (fun c => (p, c))) = 0 := by
  rw [countPair, List.countP_eq_zero]
  intro a ha hcon
  rcases List.mem_map.mp ha with ⟨c, _, rfl⟩
  exact hne (congrArg Prod.fst (of_decide_eq_true hcon))

theorem countPair_map_eq (l r : ℕ) (cs : List ℕ) :
    countPair (l, r) (cs.map (fun c => (l, c))) = countIdx r cs := by
  unfold countPair countIdx
  induction cs with
  | nil => rfl
  | cons c cs ih =>
    simp only [List.map_cons, List.countP_cons, ih]
    congr 1
    by_cases h : c = r
    · simp [h]
    · simp [h, Prod.ext_iff]

theorem countIdx_nodup_mem (r : ℕ) (l : List ℕ) (hnd : l.Nodup) (hr : r ∈ l) :
    countIdx r l = 1 := by
  unfold countIdx
  induction l with
  | nil => cases hr
  | cons a l ih =>
    rcases List.nodup_cons.mp hnd with ⟨hna, hndl⟩
    simp only [List.countP_cons]
    cases List.mem_cons.mp hr with
    | inl he =>
      have h0 : l.countP (fun x => decide (x = r)) = 0 := by
        apply List.countP_eq_zero.mpr
        intro x hx hcon
        rw [of_decide_eq_true hcon, he] at hx
        exact hna hx
      rw [h0]
      simp [he.symm]
    | inr ht =>
      have hne : a ≠ r := fun he2 => hna (he2 ▸ ht)
      rw [ih hndl ht]
      simp [hne]

theorem countIdx_probeRow (bkeys : List ℤ) (pk : ℤ) (r : ℕ)
    (hr : r < bkeys.length) (hk : bkeys.getD r 0 = pk) :
    countIdx r (probeRow bkeys pk) = 1 := by
  rw [probeRow_eq]
  apply countIdx_nodup_mem
  · exact List.Nodup.filter _ (List.nodup_reverse.mpr (List.nodup_range _))
  · exact List.mem_filter.mpr
      ⟨List.mem_reverse.mpr (List.mem_range.mpr hr), decide_eq_true hk⟩

theorem countPair_blocks_zero (bkeys pkeys : List ℤ) (l r : ℕ) :
    ∀ (ps : List ℕ), l ∉ ps →
      countPair (l, r)
        ((ps.map (fun p =>
          (probeRow bkeys (pkeys.getD p 0)).map (fun c => (p, c)))).flatten) = 0 := by
  intro ps
  induction ps with
  | nil => intro _; rfl
  | cons p ps ih =>
    intro hnl
    simp only [List.map_cons, List.flatten_cons]
    rw [countPair_append, countPair_map_ne p l r _ (fun he => hnl (he ▸ List.mem_cons_self p ps)),
      ih (fun hmem => hnl (List.mem_cons_of_mem p hmem))]

theorem countPair_blocks (bkeys pkeys : List ℤ) (l r : ℕ) :
    ∀ (ps : List ℕ), ps.Nodup → l ∈ ps →
      countPair (l, r)
        ((ps.map (fun p =>
          (probeRow bkeys (pkeys.getD p 0)).map (fun c => (p, c)))).flatten)
        = countIdx r (probeRow bkeys (pkeys.getD l 0)) := by
  intro ps
  induction ps with
  | nil => intro _ h; cases h
  | cons p ps ih =>
    intro hnd hl
    rcases List.nodup_cons.mp hnd with ⟨hnp, hndps⟩
    simp only [List.map_cons, List.flatten_cons]
    rw [countPair_append]
    cases List.mem_cons.mp hl with
    | inl he =>
      rw [← he] at hnp ⊢
      rw [countPair_map_eq, countPair_blocks_zero bkeys pkeys l r ps hnp]
      omega
    | inr ht =>
      have hne : p ≠ l := fun he2 => hnp (he2 ▸ ht)
      rw [countPair_map_ne p l r _ hne, ih hndps ht]
      omega

theorem countPair_probePairsAll (pkeys bkeys : List ℤ) (l r : ℕ)
    (hl : l < pkeys.length) (hr : r < bkeys.length)
    (hk : pkeys.getD l 0 = bkeys.getD r 0) :
    countPair (l, r) (probePairsAll pkeys bkeys) = 1 := by
  unfold probePairsAll
  rw [countPair_blocks bkeys pkeys l r (List.range pkeys.length)
      (List.nodup_range _) (List.mem_range.mpr hl)]
  exact countIdx_probeRow bkeys _ r hr hk.symm

theorem countPair_map_swap (l r : ℕ) (ps : List (ℕ × ℕ)) :
    countPair (l, r) (ps.map (fun pr => (pr.2, pr.1))) = countPair (r, l) ps := by
  unfold countPair
  rw [List.countP_map]
  have hfe : ((fun x : ℕ × ℕ => decide (x = (l, r))) ∘ (fun pr : ℕ × ℕ => (pr.2, pr.1)))
      = fun x : ℕ × ℕ => decide (x = (r, l)) := by
    funext x
    rcases x with ⟨a, b⟩
    simp only [Function.comp_apply]
    exact decide_eq_decide.mpr (by
      constructor
      · intro h
        rcases Prod.mk.injEq .. |>.mp h with ⟨h1, h2⟩
        exact Prod.ext h2 h1
      · intro h
        rcases Prod.mk.injEq .. |>.mp h with ⟨h1, h2⟩
        exact Prod.ext h2 h1)
  rw [hfe]

/-- C1: the end-to-end inner join emits exactly the matching index pairs:
every emitted (l, r) is in range and satisfies L[l] = R[r], and every pair
with L[l] = R[r] is emitted exactly once (Cartesian on duplicates). -/
theorem inner_join_exact_matches (L R : List ℤ) :
    (∀ pr ∈ galleon_inner_join_e2e_i64 L R,
      pr.1 < L.length ∧ pr.2 < R.length ∧ L.getD pr.1 0 = R.getD pr.2 0) ∧
    (∀ l r, l < L.length → r < R.length → L.getD l 0 = R.getD r 0 →
      countPair (l, r) (galleon_inner_join_e2e_i64 L R) = 1) := by
  unfold galleon_inner_join_e2e_i64
  by_cases hsz : R.length < L.length
  · rw [if_pos hsz]
    exact ⟨fun pr hpr => mem_probePairsAll L R pr hpr,
      fun l r hl hr hk => countPair_probePairsAll L R l r hl hr hk⟩
  · rw [if_neg hsz]
    constructor
    · intro pr hpr
      rcases List.mem_map.mp hpr with ⟨qr, hqr, rfl⟩
      obtain ⟨h1, h2, h3⟩ := mem_probePairsAll R L qr hqr
      exact ⟨h2, h1, h3.symm⟩
    · intro l r hl hr hk
      rw [countPair_map_swap]
      exact countPair_probePairsAll R L r l hr hl hk.symm

/-- C1 witness: spec scenario 4 — L = [1, 2, 2, 3], R = [2, 3, 3]: the pairs
(1, 0) and (3, 2) are each emitted exactly once. -/
theorem inner_join_exact_matches_witness :
    countPair (1, 0) (galleon_inner_join_e2e_i64 [1, 2, 2, 3] [2, 3, 3]) = 1 ∧
    countPair (3, 2) (galleon_inner_join_e2e_i64 [1, 2, 2, 3] [2, 3, 3]) = 1 :=
  ⟨(inner_join_exact_matches [1, 2, 2, 3] [2, 3, 3]).2 1 0
      (by decide) (by decide) (by decide),
   (inner_join_exact_matches [1, 2, 2, 3] [2, 3, 3]).2 3 2
      (by decide) (by decide) (by decide)⟩

/-- Inner join sanity example, spec scenario 4: four matches, probe-major,
chain (decreasing build row) order within a probe row. -/
theorem inner_join_spec_example :
    galleon_inner_join_e2e_i64 [1, 2, 2, 3] [2, 3, 3]
      = [(1, 0), (2, 0), (3, 2), (3, 1)] := by
  decide

/-! ## Probe cap (C8) -/

theorem foldl_cap_take {α : Type} (m : ℕ) :
    ∀ (l acc : List α), acc.length ≤ m →
      l.foldl (fun acc pr => if acc.length < m then acc ++ [pr] else acc) acc
        = acc ++ l.take (m - acc.length) := by
  intro l
  induction l with
  | nil => intro acc _; simp
  | cons x l ih =>
    intro acc hle
    simp only [List.foldl_cons]
    by_cases hlt : acc.length < m
    · rw [if_pos hlt, ih (acc ++ [x]) (by simp; omega)]
      have hm : m - acc.length = (m - (acc ++ [x]).length) + 1 := by
        simp only [List.length_append, List.length_cons, List.length_nil]
        omega
      rw [hm, List.take_succ_cons]
      simp
    · rw [if_neg hlt, ih acc hle]
      have hm : m - acc.length = 0 := by omega
      rw [hm]
      simp

/-- C8: the capped probe never emits more than max_matches pairs; it emits
exactly the first min(total, max_matches) matches (a prefix of the full
match stream), so on overflow the output is truncated and the returned
count — the output length — equals max_matches. -/
theorem probe_cap_truncates (pkeys bkeys : List ℤ) (maxM : ℕ) :
    galleon_probe_join_hash_table pkeys bkeys maxM
        = (probePairsAll pkeys bkeys).take maxM ∧
    (galleon_probe_join_hash_table pkeys bkeys maxM).length
        = min (probePairsAll pkeys bkeys).length maxM ∧
    (galleon_probe_join_hash_table pkeys bkeys maxM).length ≤ maxM ∧
    ((probePairsAll pkeys bkeys).length ≤ maxM →
      galleon_probe_join_hash_table pkeys bkeys maxM = probePairsAll pkeys bkeys) ∧
    (maxM ≤ (probePairsAll pkeys bkeys).length →
      (galleon_probe_join_hash_table pkeys bkeys maxM).length = maxM) := by
  have htake : galleon_probe_join_hash_table pkeys bkeys maxM
      = (probePairsAll pkeys bkeys).take maxM := by
    unfold galleon_probe_join_hash_table
    rw [foldl_cap_take maxM (probePairsAll pkeys bkeys) [] (by simp)]
    simp
  have hlen : (galleon_probe_join_hash_table pkeys bkeys maxM).length
      = min (probePairsAll pkeys bkeys).length maxM := by
    rw [htake, List.length_take, Nat.min_comm]
  refine ⟨htake, hlen, by omega, ?_, by omega⟩
  intro hle
  rw [htake, List.take_of_length_le hle]

/-- C8 witness: probing [1, 2, 2, 3] against build side [2, 3, 3] yields 4
matches in full; with max_matches = 2 the probe returns exactly 2 pairs,
the overflow signal. -/
theorem probe_cap_truncates_witness :
    (galleon_probe_join_hash_table [1, 2, 2, 3] [2, 3, 3] 2).length = 2 ∧
    (galleon_probe_join_hash_table [1, 2, 2, 3] [2, 3, 3] 10
      = probePairsAll [1, 2, 2, 3] [2, 3, 3]) :=
  ⟨(probe_cap_truncates [1, 2, 2, 3] [2, 3, 3] 2).2.2.2.2 (by decide),
   (probe_cap_truncates [1, 2, 2, 3] [2, 3, 3] 10).2.2.2.1 (by decide)⟩

/-! ## Left join (C2) -/

theorem pairwise_of_forall_mem {γ : Type} (R : γ → γ → Prop) :
    ∀ (l : List γ), (∀ x ∈ l, ∀ y ∈ l, R x y) → l.Pairwise R := by
  intro l
  induction l with
  | nil => intro _; exact List.Pairwise.nil
  | cons a l ih =>
    intro h
    refine List.pairwise_cons.mpr ⟨?_, ?_⟩
    · intro b hb
      exact h a (List.mem_cons_self a l) b (List.mem_cons_of_mem a hb)
    · exact ih (fun x hx y hy =>
        h x (List.mem_cons_of_mem a hx) y (List.mem_cons_of_mem a hy))

theorem leftJoinRow_fst (L R : List ℤ) (p : ℕ) :
    ∀ pr ∈ leftJoinRow L R p, pr.1 = p := by
  intro pr hpr
  unfold leftJoinRow at hpr
  by_cases he : (probeRow R (L.getD p 0)).isEmpty
  · rw [if_pos he] at hpr
    rcases List.mem_singleton.mp hpr with rfl
    rfl
  · rw [if_neg he] at hpr
    rcases List.mem_map.mp hpr with ⟨r, _, rfl⟩
    rfl

theorem filter_blocks (f : ℕ → List (ℕ × ℤ)) (hf : ∀ p, ∀ pr ∈ f p, pr.1 = p)
    (l : ℕ) :
    ∀ (ps : List ℕ), ps.Nodup →
      ((ps.map f).flatten.filter (fun pr => decide (pr.1 = l)))
        = if l ∈ ps then f l else [] := by
  intro ps
  induction ps with
  | nil => intro _; simp
  | cons p ps ih =>
    intro hnd
    rcases List.nodup_cons.mp hnd with ⟨hnp, hndps⟩
    simp only [List.map_cons, List.flatten_cons, List.filter_append, ih hndps]
    by_cases hpl : p = l
    · subst hpl
      rw [List.filter_eq_self.mpr (fun a ha => decide_eq_true (hf p a ha))]
      simp [hnp]
    · rw [List.filter_eq_nil_iff.mpr
        (fun a ha hcon => hpl ((hf p a ha).symm.trans (of_decide_eq_true hcon)))]
      simp only [List.nil_append]
      have hiff : l ∈ p :: ps ↔ l ∈ ps := by
        constructor
        · intro h
          cases List.mem_cons.mp h with
          | inl he => exact absurd he.symm hpl
          | inr ht => exact ht
        · exact List.mem_cons_of_mem p
      rw [if_congr hiff rfl rfl]

/-- C2: the left join emits, for every left row l: its chain matches (l, r)
with no sentinel when at least one right key equals L[l], and exactly the
sentinel row (l, -1) otherwise; every left row appears; rows are
left-major and, within one left row, in build-chain order (decreasing
build row). -/
theorem left_join_rows (L R : List ℤ) (l : ℕ) (hl : l < L.length) :
    (∃ pr ∈ galleon_left_join_i64 L R, pr.1 = l) ∧
    ((¬ ∃ r ∈ List.range R.length, R.getD r 0 = L.getD l 0) →
      (galleon_left_join_i64 L R).filter (fun pr => decide (pr.1 = l))
        = [(l, (-1 : ℤ))]) ∧
    ((∃ r ∈ List.range R.length, R.getD r 0 = L.getD l 0) →
      (galleon_left_join_i64 L R).filter (fun pr => decide (pr.1 = l))
        = (((List.range R.length).reverse).filter
            (fun r => decide (R.getD r 0 = L.getD l 0))).map
              (fun r : ℕ => (l, (r : ℤ)))) ∧
    List.Pairwise (fun a b : ℕ × ℤ => a.1 ≤ b.1) (galleon_left_join_i64 L R) ∧
    (∀ pr ∈ galleon_left_join_i64 L R, pr.1 < L.length) := by
  have hfilter : (galleon_left_join_i64 L R).filter (fun pr => decide (pr.1 = l))
      = leftJoinRow L R l := by
    unfold galleon_left_join_i64
    rw [filter_blocks (leftJoinRow L R) (leftJoinRow_fst L R) l
        (List.range L.length) (List.nodup_range _)]
    rw [if_pos (List.mem_range.mpr hl)]
  have hb : (¬ ∃ r ∈ List.range R.length, R.getD r 0 = L.getD l 0) →
      (galleon_left_join_i64 L R).filter (fun pr => decide (pr.1 = l))
        = [(l, (-1 : ℤ))] := by
    intro hno
    rw [hfilter]
    unfold leftJoinRow
    have hempty : probeRow R (L.getD l 0) = [] := by
      rw [probeRow_eq]
      apply List.filter_eq_nil_iff.mpr
      intro r hr hcon
      exact hno ⟨r, List.mem_reverse.mp hr, of_decide_eq_true hcon⟩
    rw [hempty]
    rfl
  have hc : (∃ r ∈ List.range R.length, R.getD r 0 = L.getD l 0) →
      (galleon_left_join_i64 L R).filter (fun pr => decide (pr.1 = l))
        = (((List.range R.length).reverse).filter
            (fun r => decide (R.getD r 0 = L.getD l 0))).map
              (fun r : ℕ => (l, (r : ℤ))) := by
    rintro ⟨r, hr, hk⟩
    rw [hfilter]
    unfold leftJoinRow
    have hmem : r ∈ probeRow R (L.getD l 0) := by
      rw [probeRow_eq]
      exact List.mem_filter.mpr ⟨List.mem_reverse.mpr hr, decide_eq_true hk⟩
    have hne : ¬ (probeRow R (L.getD l 0)).isEmpty := by
      intro hcon
      rw [List.isEmpty_iff.mp hcon] at hmem
      cases hmem
    rw [if_neg hne, probeRow_eq]
  refine ⟨?_, hb, hc, ?_, ?_⟩
  · by_cases hex : ∃ r ∈ List.range R.length, R.getD r 0 = L.getD l 0
    · rcases hex with ⟨r, hr, hk⟩
      have := hc ⟨r, hr, hk⟩
      have hmem2 : (l, (r : ℤ)) ∈
          (galleon_left_join_i64 L R).filter (fun pr => decide (pr.1 = l)) := by
        rw [this]
        have hrmem : r ∈ ((List.range R.length).reverse).filter
            (fun r => decide (R.getD r 0 = L.getD l 0)) :=
          List.mem_filter.mpr ⟨List.mem_reverse.mpr hr, decide_eq_true hk⟩
        exact List.mem_map_of_mem (fun r : ℕ => (l, (r : ℤ))) hrmem
      exact ⟨(l, (r : ℤ)), List.mem_of_mem_filter hmem2, rfl⟩
    · have := hb hex
      have hmem2 : (l, (-1 : ℤ)) ∈
          (galleon_left_join_i64 L R).filter (fun pr => decide (pr.1 = l)) := by
        rw [this]
        exact List.mem_singleton.mpr rfl
      exact ⟨(l, (-1 : ℤ)), List.mem_of_mem_filter hmem2, rfl⟩
  · unfold galleon_left_join_i64
    apply List.pairwise_flatten.mpr
    refine ⟨?_, ?_⟩
    · intro blk hblk
      rcases List.mem_map.mp hblk with ⟨p, _, rfl⟩
      apply pairwise_of_forall_mem
      intro x hx y hy
      rw [leftJoinRow_fst L R p x hx, leftJoinRow_fst L R p y hy]
    · rw [List.pairwise_map]
      refine (List.pairwise_lt_range _).imp ?_
      intro p q hpq x hx y hy
      rw [leftJoinRow_fst L R p x hx, leftJoinRow_fst L R q y hy]
      omega
  · intro pr hpr
    unfold galleon_left_join_i64 at hpr
    rcases List.mem_flatten.mp hpr with ⟨blk, hblk, hprm⟩
    rcases List.mem_map.mp hblk with ⟨p, hp, rfl⟩
    rw [leftJoinRow_fst L R p pr hprm]
    exact List.mem_range.mp hp

/-- C2 witness: spec scenario 5 — L = [1, 4, 2], R = [2, 2]: left rows 0 and
1 are unmatched and appear once with right index -1; left row 2 matches
both right rows, in chain (decreasing) order. -/
theorem left_join_rows_witness :
    ((galleon_left_join_i64 [1, 4, 2] [2, 2]).filter
        (fun pr => decide (pr.1 = 0)) = [(0, (-1 : ℤ))]) ∧
    ((galleon_left_join_i64 [1, 4, 2] [2, 2]).filter
        (fun pr => decide (pr.1 = 2)) = [(2, (1 : ℤ)), (2, (0 : ℤ))]) := by
  have h0 := left_join_rows [1, 4, 2] [2, 2] 0 (by decide)
  have h2 := left_join_rows [1, 4, 2] [2, 2] 2 (by decide)
  refine ⟨h0.2.1 (by decide), ?_⟩
  rw [h2.2.2.1 (by decide)]
  decide

end Galleon
